import Mathlib

set_option autoImplicit false

/-!
Verification of the corridor-routing backend (`backend/app.py`).

This file embeds the routing backend's core functions in Lean and proves
properties stated in the specification.

The embedding has three layers:

* **Real-valued geometry and the route orchestrator** — `haversine`,
  `compute_buffer_km` and the `/route` handler `route`. Python floats are
  idealised as real numbers; the external collaborators (the OSRM HTTP call
  `route_via_osrm` and the local routing attempt `route_via_osmnx`) are
  modelled as oracles in a `RouteEnv`, each returning either a value
  (`Except.ok`) or raising an exception (`Except.error`), exactly mirroring
  where the Python code catches exceptions.

* **Tile keys** — `tile_key` rounds each bounding-box bound to three decimal
  places (Python `f"{x:.3f}"`, which rounds half-to-even on the represented
  value); bounds are idealised as rationals and the formatted string is
  abstracted as the 4-tuple of rounded milli-degree integers, in which the
  underscore-joined fixed-point rendering is injective (up to the sign of a
  zero).

* **The local graph pipeline** — a computable rational-valued embedding of
  `best_edge_key`, `edge_coords`, `edge_len_m`, `polyline_from_path` and
  `route_via_osmnx`, over a directed multigraph `GraphB`. The great-circle
  distance used in fallback branches is passed as a function argument `hav`
  (its trigonometric definition is irrelevant to the graph claims), and the
  delegated shortest-path / nearest-node searches of the graph library are
  oracles in a `LocalEnv`. `nx.has_path` on the undirected view is embedded
  as a fuel-bounded breadth-first search `has_pathB` with enough fuel to be
  exhaustive.
-/

/-! ## Geometry helpers (`haversine`, `deg_buffer_for_km`, `compute_buffer_km`) -/

/-- Python `math.radians`: degrees to radians. -/
noncomputable def radians (x : ℝ) : ℝ := x * Real.pi / 180

/-- Model of `haversine(a, b)`: great-circle distance in meters between two
`(lat, lon)` pairs, mean Earth radius 6,371,000 m (`app.py` lines 37–45). -/
noncomputable def haversine (a b : ℝ × ℝ) : ℝ :=
  let R : ℝ := 6371000
  let dphi := radians (b.1 - a.1)
  let dl := radians (b.2 - a.2)
  let p1 := radians a.1
  let p2 := radians b.1
  let h := Real.sin (dphi / 2) ^ 2 + Real.cos p1 * Real.cos p2 * Real.sin (dl / 2) ^ 2
  2 * R * Real.arcsin (Real.sqrt h)

/-- Model of `compute_buffer_km`: corridor half-width heuristic
(`app.py` lines 52–55). -/
noncomputable def compute_buffer_km (start_lat start_lng end_lat end_lng : ℝ) : ℝ :=
  let dist_km := haversine (start_lat, start_lng) (end_lat, end_lng) / 1000.0
  max 8.0 (min 60.0 (dist_km * 0.05))

lemma haversine_comm (a b : ℝ × ℝ) : haversine a b = haversine b a := by
  simp only [haversine, radians]
  have h1 : (b.1 - a.1) * Real.pi / 180 / 2 = -((a.1 - b.1) * Real.pi / 180 / 2) := by ring
  have h2 : (b.2 - a.2) * Real.pi / 180 / 2 = -((a.2 - b.2) * Real.pi / 180 / 2) := by ring
  rw [h1, h2, Real.sin_neg, Real.sin_neg]
  ring_nf

lemma haversine_self (a : ℝ × ℝ) : haversine a a = 0 := by
  unfold haversine radians
  simp

/-- Claim C9: For any two coordinates `a` and `b`, `haversine a b = haversine b a`,
and for any coordinate `a`, `haversine a a = 0`. -/
theorem C9_haversine_symm_and_self :
    (∀ a b : ℝ × ℝ, haversine a b = haversine b a) ∧ (∀ a : ℝ × ℝ, haversine a a = 0) :=
  ⟨haversine_comm, haversine_self⟩

/-- Claim C8: `compute_buffer_km` is the clamp of 5% of the haversine distance in
km to `[8, 60]`; it always lies within `[8, 60]` and is monotonically
non-decreasing in the trip distance. -/
theorem C8_compute_buffer_km_clamped_monotone
    (a1 a2 b1 b2 c1 c2 d1 d2 : ℝ)
    (h : haversine (a1, a2) (b1, b2) ≤ haversine (c1, c2) (d1, d2)) :
    compute_buffer_km a1 a2 b1 b2 =
      max 8.0 (min 60.0 (haversine (a1, a2) (b1, b2) / 1000.0 * 0.05)) ∧
    8.0 ≤ compute_buffer_km a1 a2 b1 b2 ∧
    compute_buffer_km a1 a2 b1 b2 ≤ 60.0 ∧
    compute_buffer_km a1 a2 b1 b2 ≤ compute_buffer_km c1 c2 d1 d2 := by
  refine ⟨rfl, ?_, ?_, ?_⟩ <;> simp only [compute_buffer_km]
  · exact le_max_left _ _
  · exact max_le (by norm_num) (min_le_left _ _)
  · gcongr

/-- Witness for C8 at concrete coordinates. -/
theorem C8_witness :
    8.0 ≤ compute_buffer_km 0 0 0 0 ∧
    compute_buffer_km 0 0 0 0 ≤ 60.0 ∧
    compute_buffer_km 0 0 0 0 ≤ compute_buffer_km 0 0 0 0 :=
  let H := C8_compute_buffer_km_clamped_monotone 0 0 0 0 0 0 0 0 (le_refl _)
  ⟨H.2.1, H.2.2.1, H.2.2.2⟩

/-! ## The route orchestrator (`/route` handler, `app.py` lines 327–354)

`route_via_osrm` (the external OSRM HTTP call) and `route_via_osmnx` (one
local routing attempt at a given `buffer_km`) are modelled as oracles of a
`RouteEnv`: each either raises a Python exception (`Except.error` with the
exception's string) or returns `None` (`Option.none`, "no route") or a
result dict. -/

/-- The JSON-able response body of `/route`; a success dict from
`route_via_osrm` / `route_via_osmnx` carries no `error` / `detail` keys
(modelled as `none`). -/
structure RouteResult where
  polyline : List (ℝ × ℝ)
  meters : Option ℝ
  seconds : Option ℝ
  error : Option String
  detail : Option String

/-- Outcomes of the two external routing collaborators for one request. -/
structure RouteEnv where
  osrm : Except String (Option RouteResult)
  localRoute : ℝ → Except String (Option RouteResult)

/-- The local fallback loop
`for mult in (1.0, 1.6, 2.3): res = route_via_osmnx(..., buffer_km=min(60.0, buf*mult)); if res: return res`
followed by the terminal `no_path` result (`app.py` lines 346–350), unrolled
over the three-element tuple. An exception in an attempt propagates. -/
def localCascade (env : RouteEnv) (buf : ℝ) : Except String RouteResult :=
  match env.localRoute (min 60.0 (buf * 1.0)) with
  | .error e => .error e
  | .ok (some r) => .ok r
  | .ok none =>
    match env.localRoute (min 60.0 (buf * 1.6)) with
    | .error e => .error e
    | .ok (some r) => .ok r
    | .ok none =>
      match env.localRoute (min 60.0 (buf * 2.3)) with
      | .error e => .error e
      | .ok (some r) => .ok r
      | .ok none => .ok ⟨[], none, none, some "no_path", none⟩

/-- Body of the `try:` block of `route` (`app.py` lines 334–350): the OSRM
attempt runs when `engine in ("auto", "osrm")` and its own exceptions are
caught locally (non-fatal); on a successful OSRM route it is returned
verbatim; otherwise the base buffer is computed
(`buffer_km if buffer_km is not None else compute_buffer_km(...)`) and the
local cascade runs. -/
noncomputable def routePipeline (env : RouteEnv)
    (start_lat start_lng end_lat end_lng : ℝ)
    (buffer_km : Option ℝ) (engine : String) : Except String RouteResult :=
  let osrm_res : Option RouteResult :=
    if engine = "auto" ∨ engine = "osrm" then
      match env.osrm with
      | .ok (some r) => some r
      | _ => none
    else none
  match osrm_res with
  | some r => .ok r
  | none =>
    let buf := buffer_km.getD (compute_buffer_km start_lat start_lng end_lat end_lng)
    localCascade env buf

/-- The top-level `except Exception` handler of `route` (`app.py` lines
351–354): an escaped exception becomes a `server_error` result with the
exception string as `detail`. -/
def handleResult : Except String RouteResult → RouteResult
  | .ok r => r
  | .error e => ⟨[], none, none, some "server_error", some e⟩

/-- The `/route` handler (`app.py` lines 327–354). -/
noncomputable def route (env : RouteEnv) (start_lat start_lng end_lat end_lng : ℝ)
    (buffer_km : Option ℝ) (engine : String) : RouteResult :=
  handleResult (routePipeline env start_lat start_lng end_lat end_lng buffer_km engine)

/-- OSRM result used by the C1 counterexample. -/
def r0 : RouteResult := ⟨[], some 1234, some 60, none, none⟩

/-- Environment in which the remote service responds but finds no route,
while the local graph pipeline finds `r0` at every buffer. -/
def env_osrm_none : RouteEnv := ⟨Except.ok none, fun _ => Except.ok (some r0)⟩

/-- Claim C1, counterexample: With `engine = "osrm"`, a remote service that
returns no route (`Except.ok none`, i.e. OSRM answered but `code != "Ok"`),
and a local pipeline that finds `r0`: `route` returns the local pipeline's
`r0`. So with engine `"osrm"` the result does NOT come from the remote
service alone — the code falls through to the local graph pipeline. -/
theorem C1_counterexample :
    env_osrm_none.osrm = Except.ok none ∧
    route env_osrm_none 32 (-96) 33 (-97) (some 10) "osrm" = r0 := by
  refine ⟨rfl, ?_⟩
  simp [route, routePipeline, localCascade, env_osrm_none, handleResult]

/-- When the OSRM attempt yields no route (exception or `None`) — or is
skipped because the engine is neither `"auto"` nor `"osrm"` — `route` is the
local cascade's outcome. -/
lemma route_eq_local (env : RouteEnv) (a b c d : ℝ) (bk : Option ℝ) (engine : String)
    (hrem : engine = "auto" ∨ engine = "osrm" → ∀ r, env.osrm ≠ .ok (some r)) :
    route env a b c d bk engine =
      handleResult (localCascade env (bk.getD (compute_buffer_km a b c d))) := by
  unfold route routePipeline
  by_cases he : engine = "auto" ∨ engine = "osrm"
  · rcases ho : env.osrm with e | o
    · simp [he, ho]
    · rcases o with - | r
      · simp [he, ho]
      · exact absurd ho (hrem he r)
  · simp [he]


/-- Claim C1, amended: A successful remote response with engine `"auto"` or
`"osrm"` is returned verbatim, bypassing the local pipeline entirely; but
local-graph attempts are made whenever the remote attempt yields no route —
for engine `"auto"` or `"osrm"` with the remote exhausted, and for every
other engine value (including `"local"`), for which the remote is skipped. -/
theorem C1_remote_verbatim_else_local_fallback (env : RouteEnv) (a b c d : ℝ)
    (bk : Option ℝ) (engine : String) :
    ((engine = "auto" ∨ engine = "osrm") → ∀ r, env.osrm = .ok (some r) →
      route env a b c d bk engine = r) ∧
    ((engine = "auto" ∨ engine = "osrm" → ∀ r, env.osrm ≠ .ok (some r)) →
      route env a b c d bk engine =
        handleResult (localCascade env (bk.getD (compute_buffer_km a b c d)))) := by
  constructor
  · intro he r hr
    unfold route routePipeline
    simp [he, hr, handleResult]
  · exact route_eq_local env a b c d bk engine

/-- Witness for C1's amended theorem: engine `"osrm"` with the remote raising
a transport error still runs the local cascade. -/
theorem C1_witness :
    route ⟨Except.error "connection", fun _ => Except.ok none⟩ 0 0 0 0 (some 10) "osrm" =
      handleResult (localCascade ⟨Except.error "connection", fun _ => Except.ok none⟩
        ((some (10:ℝ)).getD (compute_buffer_km 0 0 0 0))) :=
  (C1_remote_verbatim_else_local_fallback
      ⟨Except.error "connection", fun _ => Except.ok none⟩ 0 0 0 0 (some 10) "osrm").2
    (fun _ _ h => Except.noConfusion h)

/-- Claim C3: When the remote attempt is exhausted or skipped and all three
local buffer tiers return no result, `route` returns exactly the
`RouteResult` with empty polyline, absent meters and seconds, and error code
`"no_path"`. -/
theorem C3_exhaustion_no_path (env : RouteEnv) (a b c d : ℝ)
    (bk : Option ℝ) (engine : String)
    (hrem : engine = "auto" ∨ engine = "osrm" → ∀ r, env.osrm ≠ .ok (some r))
    (h1 : env.localRoute (min 60.0 (bk.getD (compute_buffer_km a b c d) * 1.0)) = .ok none)
    (h2 : env.localRoute (min 60.0 (bk.getD (compute_buffer_km a b c d) * 1.6)) = .ok none)
    (h3 : env.localRoute (min 60.0 (bk.getD (compute_buffer_km a b c d) * 2.3)) = .ok none) :
    route env a b c d bk engine = ⟨[], none, none, some "no_path", none⟩ := by
  rw [route_eq_local env a b c d bk engine hrem]
  simp [localCascade, h1, h2, h3, handleResult]

/-- Witness for C3: remote transport error, all local tiers find nothing. -/
theorem C3_witness :
    route ⟨Except.error "down", fun _ => Except.ok none⟩ 0 0 0 0 (some 10) "auto" =
      ⟨[], none, none, some "no_path", none⟩ :=
  C3_exhaustion_no_path ⟨Except.error "down", fun _ => Except.ok none⟩ 0 0 0 0 (some 10) "auto"
    (fun _ _ h => Except.noConfusion h) rfl rfl rfl

/-- Claim C4: `route` is a total function of the pipeline's outcome: any
exception escaping the `try:` body is converted into the `server_error`
result carrying the exception string as `detail`, and a normal pipeline
result is returned as-is — an exception is never propagated to the caller. -/
theorem C4_top_level_catch (env : RouteEnv) (a b c d : ℝ)
    (bk : Option ℝ) (engine : String) :
    (∀ e, routePipeline env a b c d bk engine = .error e →
      route env a b c d bk engine = ⟨[], none, none, some "server_error", some e⟩) ∧
    (∀ r, routePipeline env a b c d bk engine = .ok r →
      route env a b c d bk engine = r) := by
  constructor
  · intro e he
    unfold route
    rw [he]
    rfl
  · intro r hr
    unfold route
    rw [hr]
    rfl

/-- Witness for C4: the first local attempt raises `"boom"`; `route` returns
the `server_error` result rather than propagating. -/
theorem C4_witness :
    route ⟨Except.ok none, fun _ => Except.error "boom"⟩ 0 0 0 0 (some 10) "local" =
      ⟨[], none, none, some "server_error", some "boom"⟩ :=
  (C4_top_level_catch ⟨Except.ok none, fun _ => Except.error "boom"⟩ 0 0 0 0
      (some 10) "local").1 "boom" (by simp [routePipeline, localCascade])

/-- Claim C6: With the remote attempt exhausted or skipped, the local cascade
tries buffers `min 60 (buf*1.0)`, `min 60 (buf*1.6)`, `min 60 (buf*2.3)` in
that order and stops at the first attempt returning a result: if an earlier
tier succeeds, the result is returned no matter what later tiers would do
(the environment's behaviour at the other buffers is arbitrary). -/
theorem C6_three_tier_cascade (env : RouteEnv) (a b c d : ℝ)
    (bk : Option ℝ) (engine : String)
    (hrem : engine = "auto" ∨ engine = "osrm" → ∀ r, env.osrm ≠ .ok (some r)) :
    (∀ r, env.localRoute (min 60.0 (bk.getD (compute_buffer_km a b c d) * 1.0)) = .ok (some r) →
      route env a b c d bk engine = r) ∧
    (env.localRoute (min 60.0 (bk.getD (compute_buffer_km a b c d) * 1.0)) = .ok none →
      ∀ r, env.localRoute (min 60.0 (bk.getD (compute_buffer_km a b c d) * 1.6)) = .ok (some r) →
      route env a b c d bk engine = r) ∧
    (env.localRoute (min 60.0 (bk.getD (compute_buffer_km a b c d) * 1.0)) = .ok none →
      env.localRoute (min 60.0 (bk.getD (compute_buffer_km a b c d) * 1.6)) = .ok none →
      ∀ r, env.localRoute (min 60.0 (bk.getD (compute_buffer_km a b c d) * 2.3)) = .ok (some r) →
      route env a b c d bk engine = r) := by
  refine ⟨?_, ?_, ?_⟩
  · intro r h1
    rw [route_eq_local env a b c d bk engine hrem]
    simp [localCascade, h1, handleResult]
  · intro h1 r h2
    rw [route_eq_local env a b c d bk engine hrem]
    simp [localCascade, h1, h2, handleResult]
  · intro h1 h2 r h3
    rw [route_eq_local env a b c d bk engine hrem]
    simp [localCascade, h1, h2, h3, handleResult]

/-- Result found by the second tier in the C6 witness. -/
def r6 : RouteResult := ⟨[(1, 2)], some 500, some 40, none, none⟩

/-- Environment for the C6 witness: the first tier (buffer `min 60 (10*1.0)`)
finds nothing, the second tier (buffer `min 60 (10*1.6)`) finds `r6`. -/
noncomputable def envW6 : RouteEnv :=
  ⟨Except.error "down",
   fun requestKm => if requestKm = min 60.0 (10 * 1.6) then Except.ok (some r6) else Except.ok none⟩

/-- Witness for C6: the cascade escalates to the 1.6× tier and returns its
result. -/
theorem C6_witness : route envW6 0 0 0 0 (some 10) "auto" = r6 :=
  ((C6_three_tier_cascade envW6 0 0 0 0 (some 10) "auto"
      (fun _ _ h => Except.noConfusion h)).2.1)
    (by simp [envW6]; norm_num) r6 (by simp [envW6])

/-! ## Tile keys (`tile_key`, `app.py` lines 80–82)

`tile_key` formats each bound with `f"{x:.3f}"` and joins the four strings
with underscores. The program's bound values are binary doubles — exactly
representable dyadic rationals, captured here by the `IsDyadic` predicate —
and Python's fixed-point formatting rounds the stored value to 3 decimals
with ties to the even last digit. A formatted bound is abstracted by `fmt3`
as the pair (minus sign rendered, rounded milli-degree value): the
underscore-joined key string is injective in the 4-tuple of these pairs,
and `"-0.000"` and `"0.000"` stay distinct. (The double `-0.0`, which also
renders as `"-0.000"`, has no rational counterpart and is outside the
model's range.) -/

/-- Round-half-to-even to the nearest integer. -/
def roundHalfEven (y : ℚ) : ℤ :=
  if y - ⌊y⌋ < 1/2 then ⌊y⌋
  else if 1/2 < y - ⌊y⌋ then ⌊y⌋ + 1
  else if ⌊y⌋ % 2 = 0 then ⌊y⌋ else ⌊y⌋ + 1

/-- The 3-decimal rounding `f"{x:.3f}"` performs on the stored value, as a
milli-degree integer. -/
def round3 (x : ℚ) : ℤ := roundHalfEven (x * 1000)

/-- The rationals a binary floating-point bound can hold: dyadic rationals.
(Exponent-range and precision limits of doubles are irrelevant to the
rounding claims and are not modelled.) -/
def IsDyadic (x : ℚ) : Prop := ∃ m : ℤ, ∃ k : ℕ, x * 2 ^ k = (m : ℚ)

/-- Abstraction of the rendered bound `f"{x:.3f}"`: whether a minus sign is
rendered, and the rounded milli-degree value. Injective into the rendered
strings: `"-0.000"` is `(true, 0)`, `"0.000"` is `(false, 0)`. -/
def fmt3 (x : ℚ) : Bool × ℤ := (decide (x < 0), round3 x)

/-- Model of `tile_key(north, south, east, west)`: the cache key, as the
4-tuple of rendered bounds. -/
def tile_key (north south east west : ℚ) :
    (Bool × ℤ) × (Bool × ℤ) × (Bool × ℤ) × (Bool × ℤ) :=
  (fmt3 north, fmt3 south, fmt3 east, fmt3 west)

lemma roundHalfEven_close (y : ℚ) : |y - (roundHalfEven y : ℚ)| ≤ 1/2 := by
  have h0 : ((⌊y⌋ : ℤ) : ℚ) ≤ y := Int.floor_le y
  have h1 : y < ⌊y⌋ + 1 := Int.lt_floor_add_one y
  unfold roundHalfEven
  split_ifs with hf hg he <;> rw [abs_le] <;> push_cast <;> constructor <;> linarith

lemma round3_eq_imp_close {x y : ℚ} (h : round3 x = round3 y) : |x - y| ≤ 1/1000 := by
  have hx : |x * 1000 - ((round3 x : ℤ) : ℚ)| ≤ 1/2 := roundHalfEven_close (x * 1000)
  have hy : |y * 1000 - ((round3 y : ℤ) : ℚ)| ≤ 1/2 := roundHalfEven_close (y * 1000)
  rw [h] at hx
  rw [abs_le] at hx hy ⊢
  constructor <;> linarith [hx.1, hx.2, hy.1, hy.2]

/-- A dyadic rational `x` with `x * 2000` integral has that integer
divisible by 125 (the odd part of 2000). -/
lemma dyadic_mul_2000_int {x : ℚ} (hx : IsDyadic x) (c : ℤ) (hc : x * 2000 = (c : ℚ)) :
    (125 : ℤ) ∣ c := by
  obtain ⟨m, k, hm⟩ := hx
  have hq : (c : ℚ) * 2 ^ k = 2000 * m :=
    calc (c : ℚ) * 2 ^ k = (x * 2000) * 2 ^ k := by rw [hc]
    _ = (x * 2 ^ k) * 2000 := by ring
    _ = (m : ℚ) * 2000 := by rw [hm]
    _ = 2000 * m := by ring
  have hz : c * 2 ^ k = 2000 * m := by exact_mod_cast hq
  have h5 : (125 : ℤ) ∣ c * 2 ^ k := ⟨16 * m, by linarith⟩
  have hcop : IsCoprime (125 : ℤ) (2 ^ k) :=
    (Int.isCoprime_iff_gcd_eq_one.mpr (by norm_num)).pow_right
  exact hcop.dvd_of_dvd_mul_right h5

/-- The two `.3f` ties at the ends of a `0.001` interval cannot both be
dyadic, so dyadic bounds sharing a rounded value lie strictly within
`0.001` of each other. -/
lemma round3_eq_dyadic_lt {x y : ℚ} (hx : IsDyadic x) (hy : IsDyadic y)
    (h : round3 x = round3 y) : |x - y| < 1/1000 := by
  rcases lt_or_eq_of_le (round3_eq_imp_close h) with hlt | heq
  · exact hlt
  · exfalso
    have hx1 : |x * 1000 - ((round3 x : ℤ) : ℚ)| ≤ 1/2 := roundHalfEven_close (x * 1000)
    have hy1 : |y * 1000 - ((round3 y : ℤ) : ℚ)| ≤ 1/2 := roundHalfEven_close (y * 1000)
    rw [h] at hx1
    rw [abs_le] at hx1 hy1
    rcases abs_cases (x - y) with ⟨ha, -⟩ | ⟨ha, -⟩
    · have hxy : x - y = 1/1000 := by rw [← ha, heq]
      have d1 : (125 : ℤ) ∣ 2 * round3 y + 1 := by
        refine dyadic_mul_2000_int hx (2 * round3 y + 1) ?_
        push_cast
        linarith [hx1.1, hx1.2, hy1.1, hy1.2]
      have d2 : (125 : ℤ) ∣ 2 * round3 y - 1 := by
        refine dyadic_mul_2000_int hy (2 * round3 y - 1) ?_
        push_cast
        linarith [hx1.1, hx1.2, hy1.1, hy1.2]
      have h2 : (125 : ℤ) ∣ 2 := by
        have h3 := dvd_sub d1 d2
        have h4 : 2 * round3 y + 1 - (2 * round3 y - 1) = 2 := by ring
        rwa [h4] at h3
      exact absurd (Int.le_of_dvd (by norm_num) h2) (by norm_num)
    · have hxy : y - x = 1/1000 := by
        rw [heq] at ha
        linarith
      have d1 : (125 : ℤ) ∣ 2 * round3 y + 1 := by
        refine dyadic_mul_2000_int hy (2 * round3 y + 1) ?_
        push_cast
        linarith [hx1.1, hx1.2, hy1.1, hy1.2]
      have d2 : (125 : ℤ) ∣ 2 * round3 y - 1 := by
        refine dyadic_mul_2000_int hx (2 * round3 y - 1) ?_
        push_cast
        linarith [hx1.1, hx1.2, hy1.1, hy1.2]
      have h2 : (125 : ℤ) ∣ 2 := by
        have h3 := dvd_sub d1 d2
        have h4 : 2 * round3 y + 1 - (2 * round3 y - 1) = 2 := by ring
        rwa [h4] at h3
      exact absurd (Int.le_of_dvd (by norm_num) h2) (by norm_num)

lemma round3_1_2048 : round3 (1/2048 : ℚ) = 0 := by
  have hf : ⌊(1/2048 : ℚ) * 1000⌋ = 0 := by norm_num [Int.floor_eq_iff]
  rw [round3, roundHalfEven, hf]
  norm_num

lemma round3_1_1024 : round3 (1/1024 : ℚ) = 1 := by
  have hf : ⌊(1/1024 : ℚ) * 1000⌋ = 0 := by norm_num [Int.floor_eq_iff]
  rw [round3, roundHalfEven, hf]
  norm_num

/-- Claim C2, counterexample: the bounds `1/2048 = 0.00048828125` and
`1/1024 = 0.0009765625` are exactly representable as binary doubles, differ
by `1/2048 < 0.0005`, yet render as `"0.000"` and `"0.001"`: a perturbation
smaller than `0.0005` that crosses a rounding boundary changes the key. -/
theorem C2_counterexample :
    IsDyadic ((1 : ℚ)/2048) ∧ IsDyadic ((1 : ℚ)/1024) ∧
    |(1 : ℚ)/2048 - 1/1024| < 0.0005 ∧
    tile_key ((1 : ℚ)/2048) 0 1 0 ≠ tile_key ((1 : ℚ)/1024) 0 1 0 := by
  refine ⟨⟨1, 11, by norm_num⟩, ⟨1, 10, by norm_num⟩, ?_, ?_⟩
  · rw [abs_sub_comm, abs_of_nonneg (by norm_num : (0 : ℚ) ≤ 1/1024 - 1/2048)]
    norm_num
  · have f1 : fmt3 ((1 : ℚ)/2048) = (false, 0) := by
      rw [fmt3, round3_1_2048, decide_eq_false (by norm_num : ¬((1 : ℚ)/2048 < 0))]
    have f2 : fmt3 ((1 : ℚ)/1024) = (false, 1) := by
      rw [fmt3, round3_1_1024, decide_eq_false (by norm_num : ¬((1 : ℚ)/1024 < 0))]
    intro hkey
    have h1 : fmt3 ((1 : ℚ)/2048) = fmt3 ((1 : ℚ)/1024) := congrArg Prod.fst hkey
    rw [f1, f2] at h1
    simp at h1

/-- Claim C2, amended: the key is the 4-tuple of rendered bounds (sign and
3-decimal-rounded milli-degree value): two boxes whose bounds render
identically to 3 decimal places always map to the same key; and, the bounds
being binary floating-point values (dyadic rationals, as every program
value is), two boxes differing by at least `0.001` degrees on any bound
yield distinct keys. Stability under perturbations smaller than `0.0005`
holds only when no rounding boundary is crossed. -/
theorem C2_tile_key_rounding (n1 s1 e1 w1 n2 s2 e2 w2 : ℚ)
    (hdy : IsDyadic n1 ∧ IsDyadic s1 ∧ IsDyadic e1 ∧ IsDyadic w1 ∧
      IsDyadic n2 ∧ IsDyadic s2 ∧ IsDyadic e2 ∧ IsDyadic w2) :
    (fmt3 n1 = fmt3 n2 → fmt3 s1 = fmt3 s2 → fmt3 e1 = fmt3 e2 → fmt3 w1 = fmt3 w2 →
      tile_key n1 s1 e1 w1 = tile_key n2 s2 e2 w2) ∧
    (1/1000 ≤ |n1 - n2| ∨ 1/1000 ≤ |s1 - s2| ∨ 1/1000 ≤ |e1 - e2| ∨ 1/1000 ≤ |w1 - w2| →
      tile_key n1 s1 e1 w1 ≠ tile_key n2 s2 e2 w2) := by
  obtain ⟨hn1, hs1, he1, hw1, hn2, hs2, he2, hw2⟩ := hdy
  constructor
  · intro hn hs he hw
    simp [tile_key, hn, hs, he, hw]
  · intro hd heq
    simp only [tile_key, fmt3, Prod.mk.injEq] at heq
    obtain ⟨⟨-, hn⟩, ⟨-, hs⟩, ⟨-, he⟩, ⟨-, hw⟩⟩ := heq
    rcases hd with h | h | h | h
    · exact absurd (round3_eq_dyadic_lt hn1 hn2 hn) (by linarith)
    · exact absurd (round3_eq_dyadic_lt hs1 hs2 hs) (by linarith)
    · exact absurd (round3_eq_dyadic_lt he1 he2 he) (by linarith)
    · exact absurd (round3_eq_dyadic_lt hw1 hw2 hw) (by linarith)

/-- Witness for C2's amended theorem at concrete dyadic (integer) bounds. -/
theorem C2_witness :
    tile_key 1 2 3 4 = tile_key 1 2 3 4 ∧ tile_key 1 2 3 4 ≠ tile_key 0 2 3 4 := by
  constructor
  · exact (C2_tile_key_rounding 1 2 3 4 1 2 3 4
      ⟨⟨1, 0, by norm_num⟩, ⟨2, 0, by norm_num⟩, ⟨3, 0, by norm_num⟩, ⟨4, 0, by norm_num⟩,
       ⟨1, 0, by norm_num⟩, ⟨2, 0, by norm_num⟩, ⟨3, 0, by norm_num⟩,
       ⟨4, 0, by norm_num⟩⟩).1 rfl rfl rfl rfl
  · exact (C2_tile_key_rounding 1 2 3 4 0 2 3 4
      ⟨⟨1, 0, by norm_num⟩, ⟨2, 0, by norm_num⟩, ⟨3, 0, by norm_num⟩, ⟨4, 0, by norm_num⟩,
       ⟨0, 0, by norm_num⟩, ⟨2, 0, by norm_num⟩, ⟨3, 0, by norm_num⟩,
       ⟨4, 0, by norm_num⟩⟩).2
      (Or.inl (by rw [abs_of_nonneg (by norm_num : (0 : ℚ) ≤ 1 - 0)]; norm_num))

/-! ## The local graph pipeline (`app.py` lines 185–311)

Coordinates are `(lat, lng)` pairs of rationals. An `EdgeB` is one entry of
the directed multigraph's edge dict, keyed `(src, dst, key)` and carrying
the optional `length`, `travel_time` and `geometry` attributes (a geometry's
LineString coordinates already transposed to `(lat, lng)` order). Node
attribute dicts `G.nodes[n]["y"] / ["x"]` are modelled by a total coordinate
map. The great-circle distance used in the fallback branches is passed as a
function argument `hav` standing for `haversine` (whose trigonometric
definition is irrelevant here). -/

/-- A `(lat, lng)` coordinate pair. -/
abbrev Coord := ℚ × ℚ

/-- One edge of the directed multigraph, with the attributes the pipeline
reads. -/
structure EdgeB where
  src : ℕ
  dst : ℕ
  key : ℕ
  length : Option ℚ
  travel_time : Option ℚ
  geometry : Option (List Coord)

/-- The corridor road graph: a node-coordinate map and the edge list. -/
structure GraphB where
  nodeCoord : ℕ → Coord
  edges : List EdgeB

/-- Model of `G[u][v].items()`: all parallel edges from `u` to `v`, in insertion
order. -/
def edgesBetween (G : GraphB) (u v : ℕ) : List EdgeB :=
  G.edges.filter (fun e => e.src == u && e.dst == v)

/-- Model of `G.has_edge(u, v)`. -/
def has_edge (G : GraphB) (u v : ℕ) : Bool :=
  G.edges.any (fun e => e.src == u && e.dst == v)

/-- The estimated traversal time of one edge used by `best_edge_key`:
`t = ed.get("travel_time", None); if t is None: t = float(ed.get("length", 1e9) / 12.5)`. -/
def estTime (ed : EdgeB) : ℚ :=
  match ed.travel_time with
  | some t => t
  | none => ed.length.getD 1000000000 / 12.5

/-- One iteration of `best_edge_key`'s loop: keep the key of the fastest
edge seen so far (strict improvement, so the earliest minimum wins). -/
def bestStep (acc : ℚ × Option ℕ) (ed : EdgeB) : ℚ × Option ℕ :=
  if estTime ed < acc.1 then (estTime ed, some ed.key) else acc

/-- Model of `best_edge_key(G, u, v)` (`app.py` lines 198–206): `None` when there is
no `u→v` edge; otherwise the key minimising the estimated time, starting
from the sentinel `best = 1e20`. -/
def best_edge_key (G : GraphB) (u v : ℕ) : Option ℕ :=
  if has_edge G u v = false then none
  else ((edgesBetween G u v).foldl bestStep ((10:ℚ)^20, none)).2

/-- Model of `edge_coords(G, u, v, k)` (`app.py` lines 217–224): look up `G[u][v][k]`
(a missing pair or key raises `KeyError`), then use the stored geometry's
coordinates when present and non-empty, else the straight two-point segment
between the node coordinates. -/
def edge_coords (G : GraphB) (u v : ℕ) (k : Option ℕ) : Except String (List Coord) :=
  match k with
  | none => Except.error "KeyError"
  | some kk =>
    match (edgesBetween G u v).find? (fun e => e.key == kk) with
    | none => Except.error "KeyError"
    | some ed =>
      match ed.geometry with
      | some g =>
        if g.isEmpty then Except.ok [G.nodeCoord u, G.nodeCoord v] else Except.ok g
      | none => Except.ok [G.nodeCoord u, G.nodeCoord v]

/-- Minimum of a non-empty collection, as `min(vals)` over `x :: xs`. -/
def minList (x : ℚ) (xs : List ℚ) : ℚ := xs.foldl min x

/-- Model of `edge_len_m(G, u, v)` (`app.py` lines 226–229): the minimum `length`
among the parallel `u→v` edges, falling back to the great-circle distance
between the node coordinates when no edge carries a length. -/
def edge_len_m (hav : Coord → Coord → ℚ) (G : GraphB) (u v : ℕ) : ℚ :=
  match (edgesBetween G u v).filterMap (fun e => e.length) with
  | [] => hav (G.nodeCoord u) (G.nodeCoord v)
  | x :: xs => minList x xs

/-- The per-pair segment selection of `polyline_from_path` (`app.py` lines
235–252): directed mode uses the best `u→v` edge, else the reversed best
`v→u` edge when one exists, else the (failing) lookup with key `None`;
undirected mode checks both directions and degrades to a straight two-point
segment. -/
def segForPair (hav : Coord → Coord → ℚ) (G : GraphB) (u v : ℕ) (undirected : Bool) :
    Except String (List Coord × ℚ) :=
  if undirected = false then
    let k := best_edge_key G u v
    if k = none ∧ has_edge G v u then
      match edge_coords G v u (best_edge_key G v u) with
      | .error e => .error e
      | .ok seg => .ok (seg.reverse, edge_len_m hav G v u)
    else
      match edge_coords G u v k with
      | .error e => .error e
      | .ok seg => .ok (seg, edge_len_m hav G u v)
  else
    if has_edge G u v then
      match edge_coords G u v (best_edge_key G u v) with
      | .error e => .error e
      | .ok seg => .ok (seg, edge_len_m hav G u v)
    else if has_edge G v u then
      match edge_coords G v u (best_edge_key G v u) with
      | .error e => .error e
      | .ok seg => .ok (seg.reverse, edge_len_m hav G v u)
    else
      .ok ([G.nodeCoord u, G.nodeCoord v], hav (G.nodeCoord u) (G.nodeCoord v))

/-- The loop of `polyline_from_path` (`app.py` lines 233–254), tracking the
running polyline and meter total; `i` is the pair index, and
`if i > 0 and seg: seg = seg[1:]` drops the first coordinate of every
segment after the first. -/
def polyAux (hav : Coord → Coord → ℚ) (G : GraphB) (undirected : Bool) :
    List ℕ → ℕ → List Coord → ℚ → Except String (List Coord × ℚ)
  | u :: v :: rest, i, poly, meters =>
    match segForPair hav G u v undirected with
    | .error e => .error e
    | .ok (seg, L) =>
      let seg2 := if 0 < i ∧ seg ≠ [] then seg.tail else seg
      polyAux hav G undirected (v :: rest) (i + 1) (poly ++ seg2) (meters + L)
  | _, _, poly, meters => .ok (poly, meters)

/-- Model of `polyline_from_path(G, path_nodes, undirected)` (`app.py` lines
231–255). -/
def polyline_from_path (hav : Coord → Coord → ℚ) (G : GraphB)
    (path_nodes : List ℕ) (undirected : Bool) : Except String (List Coord × ℚ) :=
  polyAux hav G undirected path_nodes 0 [] 0

/-- Undirected neighbours of `u`: targets of out-edges plus sources of
in-edges (the adjacency of `G.to_undirected()`). -/
def neighborsU (G : GraphB) (u : ℕ) : List ℕ :=
  ((G.edges.filter (fun e => e.src == u)).map (fun e => e.dst)) ++
  ((G.edges.filter (fun e => e.dst == u)).map (fun e => e.src))

/-- Worklist search over the undirected view: one unit of fuel per frontier
element processed. -/
def reachAux (G : GraphB) (t : ℕ) : ℕ → List ℕ → List ℕ → Bool
  | 0, _, _ => false
  | fuel + 1, visited, frontier =>
    match frontier with
    | [] => false
    | u :: rest =>
      if u = t then true
      else if u ∈ visited then reachAux G t fuel visited rest
      else reachAux G t fuel (u :: visited) (rest ++ neighborsU G u)

/-- Model of `nx.has_path(UG, s, t)` on the undirected view, as an exhaustive
breadth-first search: at most `1 + 2·|edges|` elements ever enter the
frontier (each edge contributes one neighbour entry at each endpoint), so
the fuel `2·|edges| + 2` never runs out. -/
def has_pathB (G : GraphB) (s t : ℕ) : Bool :=
  reachAux G t (2 * G.edges.length + 2) [] [s]

/-- Undirected adjacency: an edge in at least one direction. -/
def uadj (G : GraphB) (u v : ℕ) : Prop :=
  has_edge G u v = true ∨ has_edge G v u = true

/-- Semantic reachability in the undirected view of `G`. -/
def UReach (G : GraphB) (s t : ℕ) : Prop :=
  Relation.ReflTransGen (uadj G) s t

/-- The dict returned by a successful `route_via_osmnx`. -/
structure LocalRes where
  polyline : List Coord
  meters : ℚ
  seconds : ℚ

/-- Oracles for the delegated searches inside one `route_via_osmnx` call:
the nearest nodes found for start and end, and the three shortest-path
results (`travel_time`-weighted, `length`-weighted, undirected unweighted),
each `none` when the search failed or raised. -/
structure LocalEnv where
  nearest_s : ℕ
  nearest_t : ℕ
  pathTT : Option (List ℕ)
  pathLen : Option (List ℕ)
  pathU : Option (List ℕ)

/-- Per-pair seconds term of the travel-time recomputation (`app.py` lines
280–287): the minimum over parallel edges of `travel_time` (default
`edge_len_m/12.5`), preferring `u→v` edges, then `v→u`, then the plain
length-based estimate. The empty-list cases are unreachable under the
`has_edge` guards. -/
def tt_pair (hav : Coord → Coord → ℚ) (G : GraphB) (u v : ℕ) : ℚ :=
  if has_edge G u v then
    match (edgesBetween G u v).map (fun ed => ed.travel_time.getD (edge_len_m hav G u v / 12.5)) with
    | [] => 0
    | x :: xs => minList x xs
  else if has_edge G v u then
    match (edgesBetween G v u).map (fun ed => ed.travel_time.getD (edge_len_m hav G v u / 12.5)) with
    | [] => 0
    | x :: xs => minList x xs
  else edge_len_m hav G u v / 12.5

/-- Total `secs` accumulated over `zip(path[:-1], path[1:])`. -/
def tt_secs (hav : Coord → Coord → ℚ) (G : GraphB) (path : List ℕ) : ℚ :=
  ((path.zip path.tail).map (fun p => tt_pair hav G p.1 p.2)).foldl (· + ·) 0

/-- Model of `route_via_osmnx` (`app.py` lines 257–311) for a built corridor graph
`G`: reachability pre-check on the undirected view, then the three
weight-strategy attempts, each converted by `polyline_from_path` (directed
mode for the two weighted attempts, undirected mode for the last); an
exception escaping `polyline_from_path` propagates. -/
def route_via_osmnx (hav : Coord → Coord → ℚ) (G : GraphB) (env : LocalEnv) :
    Except String (Option LocalRes) :=
  let s := env.nearest_s
  let t := env.nearest_t
  if has_pathB G s t = false then .ok none
  else
    let tryU : Except String (Option LocalRes) :=
      match env.pathU with
      | some path =>
        if 2 ≤ path.length then
          match polyline_from_path hav G path true with
          | .error e => .error e
          | .ok (poly, meters) => .ok (some ⟨poly, meters, meters / 12.5⟩)
        else .ok none
      | none => .ok none
    let tryLen : Except String (Option LocalRes) :=
      match env.pathLen with
      | some path =>
        if 2 ≤ path.length then
          match polyline_from_path hav G path false with
          | .error e => .error e
          | .ok (poly, meters) => .ok (some ⟨poly, meters, meters / 12.5⟩)
        else tryU
      | none => tryU
    match env.pathTT with
    | some path =>
      if 2 ≤ path.length then
        match polyline_from_path hav G path false with
        | .error e => .error e
        | .ok (poly, meters) => .ok (some ⟨poly, meters, tt_secs hav G path⟩)
      else tryLen
    | none => tryLen

lemma has_edge_iff {G : GraphB} {u v : ℕ} :
    has_edge G u v = true ↔ ∃ e ∈ G.edges, e.src = u ∧ e.dst = v := by
  simp [has_edge, List.any_eq_true]

lemma mem_neighborsU {G : GraphB} {u w : ℕ} (h : w ∈ neighborsU G u) : uadj G u w := by
  rcases List.mem_append.mp h with h1 | h1
  · obtain ⟨e, he, rfl⟩ := List.mem_map.mp h1
    obtain ⟨hmem, hsrc⟩ := List.mem_filter.mp he
    left
    exact has_edge_iff.mpr ⟨e, hmem, by simpa using hsrc, rfl⟩
  · obtain ⟨e, he, rfl⟩ := List.mem_map.mp h1
    obtain ⟨hmem, hdst⟩ := List.mem_filter.mp he
    right
    exact has_edge_iff.mpr ⟨e, hmem, rfl, by simpa using hdst⟩

lemma reachAux_sound (G : GraphB) (s t : ℕ) :
    ∀ fuel visited frontier, (∀ u ∈ frontier, UReach G s u) →
      reachAux G t fuel visited frontier = true → UReach G s t := by
  intro fuel
  induction fuel with
  | zero => intro visited frontier _ h; simp [reachAux] at h
  | succ n ih =>
    intro visited frontier hf h
    match frontier with
    | [] => simp [reachAux] at h
    | u :: rest =>
      rw [reachAux] at h
      by_cases hut : u = t
      · subst hut
        exact hf u (List.mem_cons_self u rest)
      · rw [if_neg hut] at h
        by_cases hv : u ∈ visited
        · rw [if_pos hv] at h
          exact ih visited rest (fun w hw => hf w (List.mem_cons_of_mem u hw)) h
        · rw [if_neg hv] at h
          refine ih (u :: visited) (rest ++ neighborsU G u) ?_ h
          intro w hw
          rcases List.mem_append.mp hw with h1 | h1
          · exact hf w (List.mem_cons_of_mem u h1)
          · exact Relation.ReflTransGen.tail (hf u (List.mem_cons_self u rest))
              (mem_neighborsU h1)

/-- Claim C7: If the nearest start and end nodes are not connected in the
undirected view of the corridor graph, `route_via_osmnx` returns no result
immediately — regardless of what any of the three shortest-path oracles
would return, so no weighted search is consulted. -/
theorem C7_unreachable_fails_without_search (hav : Coord → Coord → ℚ) (G : GraphB)
    (env : LocalEnv) (h : ¬ UReach G env.nearest_s env.nearest_t) :
    route_via_osmnx hav G env = .ok none := by
  have hb : has_pathB G env.nearest_s env.nearest_t = false := by
    cases hb : has_pathB G env.nearest_s env.nearest_t
    · rfl
    · rw [has_pathB] at hb
      refine absurd (reachAux_sound G env.nearest_s env.nearest_t _ _ _ ?_ hb) h
      intro u hu
      rw [List.mem_singleton] at hu
      subst hu
      exact Relation.ReflTransGen.refl
  simp only [route_via_osmnx, hb]
  rfl

/-- Distance oracle for witnesses (the fallback branches never use it on
these graphs). -/
def hav0 : Coord → Coord → ℚ := fun _ _ => 0

/-- Two isolated nodes: the witness graph for C7. -/
def G0 : GraphB := ⟨fun _ => (0, 0), []⟩

/-- Witness environment for C7: start node `0`, end node `1`, and all three
path oracles claiming a path `[0, 1]` — which must be ignored. -/
def env0 : LocalEnv := ⟨0, 1, some [0, 1], some [0, 1], some [0, 1]⟩

/-- Witness for C7: on the edgeless graph the attempt fails immediately even
though every path oracle offers a path. -/
theorem C7_witness : route_via_osmnx hav0 G0 env0 = .ok none :=
  C7_unreachable_fails_without_search hav0 G0 env0 (by
    intro h
    rcases Relation.ReflTransGen.cases_head h with h1 | ⟨c, hc, -⟩
    · exact absurd h1 (by decide)
    · rcases hc with h2 | h2 <;> simp [has_edge, G0] at h2)

lemma mem_edgesBetween {G : GraphB} {u v : ℕ} {e : EdgeB} :
    e ∈ edgesBetween G u v ↔ e ∈ G.edges ∧ e.src = u ∧ e.dst = v := by
  simp [edgesBetween, List.mem_filter]

lemma edgesBetween_ne_nil {G : GraphB} {u v : ℕ} (h : has_edge G u v = true) :
    edgesBetween G u v ≠ [] := by
  obtain ⟨e, hmem, hsrc, hdst⟩ := has_edge_iff.mp h
  intro hnil
  have he : e ∈ edgesBetween G u v := mem_edgesBetween.mpr ⟨hmem, hsrc, hdst⟩
  rw [hnil] at he
  exact absurd he (List.not_mem_nil e)

lemma best_edge_key_of_no_edge {G : GraphB} {u v : ℕ} (h : has_edge G u v = false) :
    best_edge_key G u v = none := by
  simp [best_edge_key, h]

lemma bestStep_foldl_some : ∀ (l : List EdgeB) (acc : ℚ × Option ℕ), acc.2 ≠ none →
    (l.foldl bestStep acc).2 ≠ none := by
  intro l
  induction l with
  | nil => intro acc h; exact h
  | cons e rest ih =>
    intro acc h
    rw [List.foldl_cons]
    apply ih
    rw [bestStep]
    split_ifs
    · simp
    · exact h

lemma best_edge_key_isSome {G : GraphB} {u v : ℕ} (h : has_edge G u v = true)
    (hsent : ∀ e ∈ G.edges, estTime e < (10:ℚ)^20) :
    ∃ k, best_edge_key G u v = some k := by
  rw [best_edge_key, if_neg (by simp [h])]
  cases hl : edgesBetween G u v with
  | nil => exact absurd hl (edgesBetween_ne_nil h)
  | cons e rest =>
    have he : e ∈ edgesBetween G u v := by
      rw [hl]
      exact List.mem_cons_self e rest
    have hmem : e ∈ G.edges := (mem_edgesBetween.mp he).1
    rw [List.foldl_cons]
    have hstep : (bestStep ((10:ℚ)^20, none) e).2 ≠ none := by
      rw [bestStep, if_pos (hsent e hmem)]
      simp
    have hres := bestStep_foldl_some rest _ hstep
    cases hr : (rest.foldl bestStep (bestStep ((10:ℚ)^20, none) e)).2 with
    | none => exact absurd hr hres
    | some k => exact ⟨k, rfl⟩

lemma bestStep_foldl_mem : ∀ (l : List EdgeB) (acc : ℚ × Option ℕ) (k : ℕ),
    (l.foldl bestStep acc).2 = some k →
    acc.2 = some k ∨ ∃ e ∈ l, e.key = k := by
  intro l
  induction l with
  | nil => intro acc k h; exact Or.inl h
  | cons e rest ih =>
    intro acc k h
    rw [List.foldl_cons] at h
    rcases ih (bestStep acc e) k h with h1 | ⟨e', he', hk⟩
    · rw [bestStep] at h1
      split_ifs at h1
      · simp only [Option.some.injEq] at h1
        exact Or.inr ⟨e, List.mem_cons_self e rest, h1⟩
      · exact Or.inl h1
    · exact Or.inr ⟨e', List.mem_cons_of_mem e he', hk⟩

lemma best_edge_key_mem {G : GraphB} {u v : ℕ} {k : ℕ}
    (h : best_edge_key G u v = some k) :
    ∃ e ∈ edgesBetween G u v, e.key = k := by
  rw [best_edge_key] at h
  by_cases hc : has_edge G u v = false
  · rw [if_pos hc] at h
    exact Option.noConfusion h
  · rw [if_neg hc] at h
    rcases bestStep_foldl_mem _ _ _ h with h1 | h2
    · exact Option.noConfusion h1
    · exact h2

lemma edge_coords_ok {G : GraphB} {u v k : ℕ}
    (hk : ∃ e ∈ edgesBetween G u v, e.key = k) :
    ∃ seg, edge_coords G u v (some k) = .ok seg := by
  obtain ⟨e, he, rfl⟩ := hk
  have hfind : ((edgesBetween G u v).find? (fun e' => e'.key == e.key)).isSome := by
    rw [List.find?_isSome]
    exact ⟨e, he, by simp⟩
  obtain ⟨ed, hf⟩ := Option.isSome_iff_exists.mp hfind
  simp only [edge_coords, hf]
  cases ed.geometry with
  | none => exact ⟨_, rfl⟩
  | some g =>
    cases hge : g.isEmpty with
    | false => exact ⟨g, by simp [hge]⟩
    | true => exact ⟨[G.nodeCoord u, G.nodeCoord v], by simp [hge]⟩

lemma segForPair_ok (hav : Coord → Coord → ℚ) (G : GraphB) (u v : ℕ) (ub : Bool)
    (hadj : has_edge G u v = true ∨ has_edge G v u = true)
    (hsent : ∀ e ∈ G.edges, estTime e < (10:ℚ)^20) :
    ∃ sl, segForPair hav G u v ub = .ok sl := by
  cases ub
  · by_cases huv : has_edge G u v = true
    · obtain ⟨k, hk⟩ := best_edge_key_isSome huv hsent
      obtain ⟨seg, hseg⟩ := edge_coords_ok (best_edge_key_mem hk)
      refine ⟨(seg, edge_len_m hav G u v), ?_⟩
      simp [segForPair, hk, hseg]
    · have hvu : has_edge G v u = true := hadj.resolve_left huv
      have hnone : best_edge_key G u v = none :=
        best_edge_key_of_no_edge (by simpa using huv)
      obtain ⟨k2, hk2⟩ := best_edge_key_isSome hvu hsent
      obtain ⟨seg, hseg⟩ := edge_coords_ok (best_edge_key_mem hk2)
      refine ⟨(seg.reverse, edge_len_m hav G v u), ?_⟩
      simp [segForPair, hnone, hvu, hk2, hseg]
  · by_cases huv : has_edge G u v = true
    · obtain ⟨k, hk⟩ := best_edge_key_isSome huv hsent
      obtain ⟨seg, hseg⟩ := edge_coords_ok (best_edge_key_mem hk)
      refine ⟨(seg, edge_len_m hav G u v), ?_⟩
      simp [segForPair, huv, hk, hseg]
    · have hvu : has_edge G v u = true := hadj.resolve_left huv
      have huv2 : has_edge G u v = false := by simpa using huv
      obtain ⟨k2, hk2⟩ := best_edge_key_isSome hvu hsent
      obtain ⟨seg, hseg⟩ := edge_coords_ok (best_edge_key_mem hk2)
      refine ⟨(seg.reverse, edge_len_m hav G v u), ?_⟩
      simp [segForPair, huv2, hvu, hk2, hseg]

lemma polyAux_ok (hav : Coord → Coord → ℚ) (G : GraphB) (ub : Bool)
    (hsent : ∀ e ∈ G.edges, estTime e < (10:ℚ)^20) :
    ∀ path (i : ℕ) (poly : List Coord) (m : ℚ),
      List.Chain' (fun u v => has_edge G u v = true ∨ has_edge G v u = true) path →
      ∃ pm, polyAux hav G ub path i poly m = .ok pm := by
  intro path
  induction path with
  | nil => intro i poly m _; exact ⟨_, rfl⟩
  | cons u rest ih =>
    intro i poly m hchain
    cases rest with
    | nil => exact ⟨_, rfl⟩
    | cons v rest' =>
      rw [List.chain'_cons] at hchain
      obtain ⟨sl, hseg⟩ := segForPair_ok hav G u v ub hchain.1 hsent
      obtain ⟨seg, L⟩ := sl
      simp only [polyAux, hseg]
      exact ih (i + 1) _ _ hchain.2

/-- Counterexample graph for C10: a single `0 → 1` edge whose `travel_time`
equals the `1e20` sentinel that `best_edge_key` starts from. -/
def G1 : GraphB := ⟨fun n => (n, n), [⟨0, 1, 0, some 1, some ((10:ℚ)^20), none⟩]⟩

/-- Claim C10, counterexample, to the totality part: In `G1` the pair
`(0, 1)` is connected by a directed edge, but that edge's `travel_time`
equals the sentinel `1e20`, so `best_edge_key` never improves on its
starting value and returns `None`; with no reverse edge, the directed-mode
extractor then performs the `G[u][v][None]` lookup and raises, even though
every consecutive pair of the path is connected in at least one
direction. -/
theorem C10_counterexample :
    has_edge G1 0 1 = true ∧ best_edge_key G1 0 1 = none ∧
    polyline_from_path hav0 G1 [0, 1] false = Except.error "KeyError" :=
  ⟨rfl, rfl, rfl⟩

/-- Claim C10, amended: In directed mode the extractor is partial: for a pair
`(u, v)` with no edge in either direction, `best_edge_key` returns no key
and the lookup with the missing key raises (no straight-segment fallback);
and under the precondition that every consecutive pair is connected in at
least one direction *and* every edge's estimated traversal time is below
the `1e20` sentinel, the error branch is unreachable and the extractor
totally returns a result. -/
theorem C10_directed_mode_missing_edge (hav : Coord → Coord → ℚ) (G : GraphB) :
    (∀ u v, has_edge G u v = false → best_edge_key G u v = none) ∧
    (∀ u v rest, has_edge G u v = false → has_edge G v u = false →
      polyline_from_path hav G (u :: v :: rest) false = Except.error "KeyError") ∧
    (∀ path, List.Chain' (fun u v => has_edge G u v = true ∨ has_edge G v u = true) path →
      (∀ e ∈ G.edges, estTime e < (10:ℚ)^20) →
      ∃ pm, polyline_from_path hav G path false = Except.ok pm) := by
  refine ⟨?_, ?_, ?_⟩
  · intro u v h
    exact best_edge_key_of_no_edge h
  · intro u v rest huv hvu
    have hseg : segForPair hav G u v false = Except.error "KeyError" := by
      simp [segForPair, best_edge_key_of_no_edge huv, hvu, edge_coords]
    simp [polyline_from_path, polyAux, hseg]
  · intro path hchain hsent
    exact polyAux_ok hav G false hsent path 0 [] 0 hchain

/-- Witness graph for C10: a single ordinary edge `0 → 1`. -/
def Gw : GraphB := ⟨fun n => (n, n), [⟨0, 1, 0, some 1, some 5, none⟩]⟩

/-- Witness for C10's amended theorem: in `Gw` the pair `(1, 0)` has no
`1→0` edge so `best_edge_key` gives no key, while the connected path
`[0, 1]` extracts totally. -/
theorem C10_witness :
    best_edge_key Gw 1 0 = none ∧
    ∃ pm, polyline_from_path hav0 Gw [0, 1] false = Except.ok pm :=
  ⟨(C10_directed_mode_missing_edge hav0 Gw).1 1 0 rfl,
   (C10_directed_mode_missing_edge hav0 Gw).2.2 [0, 1]
     (List.chain'_pair.mpr (Or.inl rfl)) (by decide)⟩

/-- Executable check that a coordinate list has no two equal consecutive
entries. -/
def chainNeB : List Coord → Bool
  | a :: b :: rest => decide (a ≠ b) && chainNeB (b :: rest)
  | _ => true

lemma chainNeB_iff : ∀ l : List Coord,
    chainNeB l = true ↔ List.Chain' (fun a b : Coord => a ≠ b) l
  | [] => by simp [chainNeB]
  | [a] => by simp [chainNeB]
  | a :: b :: rest => by
    rw [chainNeB, Bool.and_eq_true, decide_eq_true_iff, List.chain'_cons,
      chainNeB_iff (b :: rest)]

/-- Well-formedness of one edge's stored geometry: when present and
non-empty it starts at the source node's coordinate, ends at the target
node's coordinate, and has no two equal consecutive coordinates. (OSM
LineString geometries satisfy this; the raw attribute dict does not enforce
it.) -/
def geomWFb (G : GraphB) (e : EdgeB) : Bool :=
  match e.geometry with
  | none => true
  | some g =>
    g.isEmpty ||
      (decide (g.head? = some (G.nodeCoord e.src)) &&
       decide (g.getLast? = some (G.nodeCoord e.dst)) && chainNeB g)

lemma edge_coords_spec {G : GraphB} {u v k : ℕ}
    (hk : ∃ e ∈ edgesBetween G u v, e.key = k)
    (hgeom : ∀ e ∈ G.edges, geomWFb G e = true)
    (hne : G.nodeCoord u ≠ G.nodeCoord v) :
    ∃ seg, edge_coords G u v (some k) = Except.ok seg ∧
      seg.head? = some (G.nodeCoord u) ∧ seg.getLast? = some (G.nodeCoord v) ∧
      List.Chain' (fun a b : Coord => a ≠ b) seg := by
  obtain ⟨e, he, rfl⟩ := hk
  have hfind : ((edgesBetween G u v).find? (fun e' => e'.key == e.key)).isSome := by
    rw [List.find?_isSome]
    exact ⟨e, he, by simp⟩
  obtain ⟨ed, hf⟩ := Option.isSome_iff_exists.mp hfind
  have hedmem : ed ∈ edgesBetween G u v := List.mem_of_find?_eq_some hf
  obtain ⟨hedges, hsrc, hdst⟩ := mem_edgesBetween.mp hedmem
  have hwf := hgeom ed hedges
  simp only [edge_coords, hf]
  cases hg : ed.geometry with
  | none => exact ⟨[G.nodeCoord u, G.nodeCoord v], rfl, rfl, rfl, List.chain'_pair.mpr hne⟩
  | some g =>
    simp only [geomWFb, hg] at hwf
    cases hge : g.isEmpty with
    | true =>
      exact ⟨[G.nodeCoord u, G.nodeCoord v], by simp [hge], rfl, rfl,
        List.chain'_pair.mpr hne⟩
    | false =>
      rw [hge, Bool.false_or, Bool.and_eq_true, Bool.and_eq_true,
        decide_eq_true_iff, decide_eq_true_iff] at hwf
      obtain ⟨⟨hhead, hlast⟩, hchain⟩ := hwf
      refine ⟨g, by simp [hge], ?_, ?_, (chainNeB_iff g).mp hchain⟩
      · rw [hhead, hsrc]
      · rw [hlast, hdst]

lemma segForPair_spec (hav : Coord → Coord → ℚ) (G : GraphB) (u v : ℕ) (ub : Bool)
    (hadj : has_edge G u v = true ∨ has_edge G v u = true)
    (hsent : ∀ e ∈ G.edges, estTime e < (10:ℚ)^20)
    (hgeom : ∀ e ∈ G.edges, geomWFb G e = true)
    (hne : G.nodeCoord u ≠ G.nodeCoord v) :
    ∃ seg L, segForPair hav G u v ub = .ok (seg, L) ∧
      seg.head? = some (G.nodeCoord u) ∧ seg.getLast? = some (G.nodeCoord v) ∧
      List.Chain' (fun a b : Coord => a ≠ b) seg := by
  have hrev : ∀ seg0 : List Coord,
      seg0.head? = some (G.nodeCoord v) → seg0.getLast? = some (G.nodeCoord u) →
      List.Chain' (fun a b : Coord => a ≠ b) seg0 →
      seg0.reverse.head? = some (G.nodeCoord u) ∧
      seg0.reverse.getLast? = some (G.nodeCoord v) ∧
      List.Chain' (fun a b : Coord => a ≠ b) seg0.reverse := by
    intro seg0 hh hl hc
    refine ⟨by rw [List.head?_reverse]; exact hl, by rw [List.getLast?_reverse]; exact hh, ?_⟩
    rw [List.chain'_reverse]
    exact hc.imp (fun a b h => Ne.symm h)
  cases ub
  · by_cases huv : has_edge G u v = true
    · obtain ⟨k, hk⟩ := best_edge_key_isSome huv hsent
      obtain ⟨seg, hseg, hh, hl, hc⟩ := edge_coords_spec (best_edge_key_mem hk) hgeom hne
      refine ⟨seg, edge_len_m hav G u v, ?_, hh, hl, hc⟩
      simp [segForPair, hk, hseg]
    · have hvu : has_edge G v u = true := hadj.resolve_left huv
      have hnone : best_edge_key G u v = none :=
        best_edge_key_of_no_edge (by simpa using huv)
      obtain ⟨k2, hk2⟩ := best_edge_key_isSome hvu hsent
      obtain ⟨seg0, hseg0, hh, hl, hc⟩ :=
        edge_coords_spec (best_edge_key_mem hk2) hgeom (Ne.symm hne)
      obtain ⟨hh', hl', hc'⟩ := hrev seg0 hh hl hc
      refine ⟨seg0.reverse, edge_len_m hav G v u, ?_, hh', hl', hc'⟩
      simp [segForPair, hnone, hvu, hk2, hseg0]
  · by_cases huv : has_edge G u v = true
    · obtain ⟨k, hk⟩ := best_edge_key_isSome huv hsent
      obtain ⟨seg, hseg, hh, hl, hc⟩ := edge_coords_spec (best_edge_key_mem hk) hgeom hne
      refine ⟨seg, edge_len_m hav G u v, ?_, hh, hl, hc⟩
      simp [segForPair, huv, hk, hseg]
    · have hvu : has_edge G v u = true := hadj.resolve_left huv
      have huv2 : has_edge G u v = false := by simpa using huv
      obtain ⟨k2, hk2⟩ := best_edge_key_isSome hvu hsent
      obtain ⟨seg0, hseg0, hh, hl, hc⟩ :=
        edge_coords_spec (best_edge_key_mem hk2) hgeom (Ne.symm hne)
      obtain ⟨hh', hl', hc'⟩ := hrev seg0 hh hl hc
      refine ⟨seg0.reverse, edge_len_m hav G v u, ?_, hh', hl', hc'⟩
      simp [segForPair, huv2, hvu, hk2, hseg0]

lemma cons_cons_of_head_last {l : List Coord} {a b : Coord}
    (hh : l.head? = some a) (hl : l.getLast? = some b) (hab : a ≠ b) :
    ∃ x y t, l = x :: y :: t := by
  match l with
  | [] => simp at hh
  | [x] =>
    simp only [List.head?_cons, Option.some.injEq] at hh
    simp only [List.getLast?_singleton, Option.some.injEq] at hl
    exact absurd (hh ▸ hl) hab
  | x :: y :: t => exact ⟨x, y, t, rfl⟩

lemma polyAux_spec (hav : Coord → Coord → ℚ) (G : GraphB) (ub : Bool)
    (hsent : ∀ e ∈ G.edges, estTime e < (10:ℚ)^20)
    (hgeom : ∀ e ∈ G.edges, geomWFb G e = true) :
    ∀ (path : List ℕ) (u : ℕ) (i : ℕ) (poly : List Coord) (m : ℚ),
      1 ≤ i →
      List.Chain' (fun a b => has_edge G a b = true ∨ has_edge G b a = true) (u :: path) →
      List.Chain' (fun a b => G.nodeCoord a ≠ G.nodeCoord b) (u :: path) →
      List.Chain' (fun a b : Coord => a ≠ b) poly →
      poly.getLast? = some (G.nodeCoord u) →
      ∃ poly2 m2, polyAux hav G ub (u :: path) i poly m = .ok (poly2, m2) ∧
        List.Chain' (fun a b : Coord => a ≠ b) poly2 ∧
        poly2.getLast? = some (G.nodeCoord (path.getLastD u)) := by
  intro path
  induction path with
  | nil =>
    intro u i poly m _ _ _ hchain hlast
    exact ⟨poly, m, rfl, hchain, by simpa using hlast⟩
  | cons v rest ih =>
    intro u i poly m hi hconn hnodes hchain hlast
    rw [List.chain'_cons] at hconn hnodes
    obtain ⟨seg, L, hseg, hhead, hslast, hschain⟩ :=
      segForPair_spec hav G u v ub hconn.1 hsent hgeom hnodes.1
    obtain ⟨c0, c1, t, rfl⟩ := cons_cons_of_head_last hhead hslast hnodes.1
    simp only [List.head?_cons, Option.some.injEq] at hhead
    have hc01 : c0 ≠ c1 := (List.chain'_cons.mp hschain).1
    have hchain2 : List.Chain' (fun a b : Coord => a ≠ b) (poly ++ (c1 :: t)) := by
      refine List.Chain'.append hchain hschain.tail ?_
      intro x hx y hy
      rw [hlast, Option.mem_def, Option.some.injEq] at hx
      simp only [List.head?_cons, Option.mem_def, Option.some.injEq] at hy
      rw [← hx, ← hy] at *
      rw [← hhead]
      exact hc01
    rw [List.getLast?_cons_cons] at hslast
    have hlast2 : (poly ++ (c1 :: t)).getLast? = some (G.nodeCoord v) := by
      rw [List.getLast?_append_cons poly c1 t]
      exact hslast
    obtain ⟨p2, m2, heq, hch, hl2⟩ :=
      ih v (i + 1) (poly ++ (c1 :: t)) (m + L) (by omega) hconn.2 hnodes.2 hchain2 hlast2
    refine ⟨p2, m2, ?_, hch, by rw [List.getLastD_cons]; exact hl2⟩
    simp only [polyAux, hseg]
    rw [if_pos ⟨by omega, by simp⟩]
    exact heq

/-- Claim C5, amended: For a path of length ≥ 2 whose consecutive node pairs
are each connected by an edge in at least one direction, and additionally:
every edge's estimated traversal time is below the `1e20` selection
sentinel, every stored geometry is well-formed (anchored at its endpoint
node coordinates, without equal consecutive coordinates), and consecutive
path nodes have distinct coordinates — the extractor succeeds and the
produced polyline has no two equal consecutive coordinates anywhere, in
particular at segment joins; each segment after the first contributes its
coordinate sequence with its first coordinate dropped. -/
theorem C5_no_duplicate_consecutive_coords (hav : Coord → Coord → ℚ) (G : GraphB)
    (path : List ℕ) (ub : Bool)
    (hlen : 2 ≤ path.length)
    (hconn : List.Chain' (fun a b => has_edge G a b = true ∨ has_edge G b a = true) path)
    (hsent : ∀ e ∈ G.edges, estTime e < (10:ℚ)^20)
    (hgeom : ∀ e ∈ G.edges, geomWFb G e = true)
    (hnodes : List.Chain' (fun a b => G.nodeCoord a ≠ G.nodeCoord b) path) :
    ∃ poly m, polyline_from_path hav G path ub = .ok (poly, m) ∧
      List.Chain' (fun a b : Coord => a ≠ b) poly := by
  match path, hlen with
  | u :: v :: rest, _ =>
    rw [List.chain'_cons] at hconn hnodes
    obtain ⟨seg, L, hseg, hhead, hslast, hschain⟩ :=
      segForPair_spec hav G u v ub hconn.1 hsent hgeom hnodes.1
    obtain ⟨p2, m2, heq, hch, -⟩ :=
      polyAux_spec hav G ub hsent hgeom rest v 1 seg (0 + L) (le_refl 1)
        hconn.2 hnodes.2 hschain hslast
    refine ⟨p2, m2, ?_, hch⟩
    simp only [polyline_from_path, polyAux, hseg]
    rw [if_neg (by simp)]
    exact heq

/-- Counterexample graph for C5: both edges exist, but the second edge's
stored geometry ends away from where it starts and re-enters the join
coordinate. -/
def G2 : GraphB :=
  ⟨fun n => (n, n),
   [⟨0, 1, 0, some 1, some 1, some [(0, 0), (1, 1)]⟩,
    ⟨1, 2, 0, some 1, some 1, some [(9, 9), (1, 1)]⟩]⟩

/-- Claim C5, counterexample: In `G2` every consecutive pair of the path
`[0, 1, 2]` is connected by a directed edge, yet the extracted polyline is
`[(0,0), (1,1), (1,1)]`: dropping the second segment's first coordinate
leaves its remaining coordinate equal to the previous segment's last, so
two identical consecutive coordinates appear at the segment join. -/
theorem C5_counterexample :
    (has_edge G2 0 1 = true ∧ has_edge G2 1 2 = true) ∧
    polyline_from_path hav0 G2 [0, 1, 2] false =
      Except.ok ([(0, 0), (1, 1), (1, 1)], 0 + 1 + 1) ∧
    ¬ List.Chain' (fun a b : Coord => a ≠ b) [(0, 0), (1, 1), (1, 1)] := by
  refine ⟨⟨rfl, rfl⟩, rfl, ?_⟩
  intro h
  exact (List.chain'_cons.mp (List.chain'_cons.mp h).2).1 rfl

/-- Witness graph for C5's amended theorem: one edge with a well-formed
three-point geometry. -/
def G3 : GraphB :=
  ⟨fun n => (n, 0), [⟨0, 1, 0, some 1, some 1, some [(0, 0), (5, 5), (1, 0)]⟩]⟩

/-- Witness for C5's amended theorem on the path `[0, 1]` in `G3`. -/
theorem C5_witness :
    ∃ poly m, polyline_from_path hav0 G3 [0, 1] false = Except.ok (poly, m) ∧
      List.Chain' (fun a b : Coord => a ≠ b) poly :=
  C5_no_duplicate_consecutive_coords hav0 G3 [0, 1] false (by decide)
    (List.chain'_pair.mpr (Or.inl rfl)) (by decide) (by decide)
    (List.chain'_pair.mpr (by decide))
